import Mathlib

/-!
RSA parity-oracle bisection attack — verification.

Shallow embedding of `src/Set6_RSA_and_DSA/challenge_46.py`: a parity
oracle over RSA decryption (`Oracle.validate_msg`) and the bisection
decryptor (`decrypt_attack`) that recovers a plaintext from
`bit_length(n)` parity answers, tracking exact rational bounds.

Python integers are modelled as `ℕ`, `fractions.Fraction` values as `ℚ`,
byte strings as `List ℕ`, and the possibly-unbound local `msg` at the
final `return` as an `Option`.
-/

namespace Challenge46

/-- Python's `int.bit_length()`: number of bits needed to represent `n`;
`(0).bit_length() == 0`. -/
def bit_length (n : ℕ) : ℕ :=
  if n = 0 then 0 else Nat.log2 n + 1

/-- Modelled from the spec: `RSA.integer_to_bytes_squeezed` lives in the
collaborator module `Utils.PublicKey` (not part of this repository's
sources); per the spec it converts an integer to its minimal big-endian
byte sequence, squeezing leading zero bytes, with `0` mapping to the
empty byte sequence. -/
def integer_to_bytes_squeezed (m : ℕ) : List ℕ :=
  if h : m = 0 then [] else integer_to_bytes_squeezed (m / 256) ++ [m % 256]
  termination_by m
  decreasing_by
    exact Nat.div_lt_self (Nat.pos_of_ne_zero h) (by norm_num)

/-- `Oracle.validate_msg`: decrypt the cipher (decryption supplied by the
collaborator RSA primitive, abstracted as `dec`) and return `not msg & 1`,
i.e. whether the parity bit of the decrypted integer is zero. -/
def validate_msg (dec : ℕ → ℕ) (cipher : ℕ) : Bool :=
  decide (dec cipher &&& 1 = 0)

/-- The mutable locals of `decrypt_attack`'s loop: the exact rational
bounds `low_frac`, `high_frac` (fractions of `n`) and their
integer-scaled mirrors `low`, `high` (which become `Fraction`s after the
first update, hence `ℚ` here). -/
structure AttackState where
  low_frac : ℚ
  high_frac : ℚ
  low : ℚ
  high : ℚ
  deriving DecidableEq, Repr

/-- Initial state of `decrypt_attack`:
`low_frac, high_frac = Fraction(0), Fraction(1)` and `low, high = 0, n`. -/
def initState (n : ℕ) : AttackState :=
  ⟨0, 1, 0, (n : ℚ)⟩

/-- One iteration of `decrypt_attack`'s loop, given the oracle's answer
`res` for this round: if `res` (plaintext even, lower half) then
`high_frac = (high_frac - low_frac) / 2 + low_frac; high = n * high_frac`,
else `low_frac = (high_frac - low_frac) / 2 + low_frac; low = n * low_frac`. -/
def step (n : ℕ) (res : Bool) (s : AttackState) : AttackState :=
  if res then
    let hf := (s.high_frac - s.low_frac) / 2 + s.low_frac
    { s with high_frac := hf, high := (n : ℚ) * hf }
  else
    let lf := (s.high_frac - s.low_frac) / 2 + s.low_frac
    { s with low_frac := lf, low := (n : ℚ) * lf }

/-- The state of `decrypt_attack`'s locals after `k` iterations of the
loop, where `ans i` is the oracle's answer in iteration `i`. -/
def runAttack (n : ℕ) (ans : ℕ → Bool) : ℕ → AttackState
  | 0 => initState n
  | k + 1 => step n (ans k) (runAttack n ans k)

/-- The ciphertext variable after `k` executions of
`cipher = (cipher * oracle.rsa.encrypt(2)) % n` starting from `c0`
(`enc2` abstracts the constant `oracle.rsa.encrypt(2)`). -/
def cipherAtRound (n enc2 c0 : ℕ) : ℕ → ℕ
  | 0 => c0
  | k + 1 => cipherAtRound n enc2 c0 k * enc2 % n

/-- The answer `decrypt_attack` receives in iteration `i`: the loop first
doubles the cipher (so iteration `i` queries the cipher after `i + 1`
updates) and then calls `oracle.validate_msg`. -/
def oracleAns (n enc2 c0 : ℕ) (oracle : ℕ → Bool) (i : ℕ) : Bool :=
  oracle (cipherAtRound n enc2 c0 (i + 1))

/-- The ciphertexts `decrypt_attack` submits to the oracle, in order:
one query per loop iteration, `bit_length n` iterations. -/
def attackQueries (n enc2 c0 : ℕ) : List ℕ :=
  (List.range (bit_length n)).map fun i => cipherAtRound n enc2 c0 (i + 1)

/-- The local `msg` after `k` iterations: unbound (`none`) before the
first iteration, otherwise the squeezed bytes of
`math.floor(high)` for the current mirror bound `high`. -/
def msgAfter (n : ℕ) (ans : ℕ → Bool) (k : ℕ) : Option (List ℕ) :=
  if k = 0 then none
  else some (integer_to_bytes_squeezed (⌊(runAttack n ans k).high⌋.toNat))

/-- `decrypt_attack`: run the loop `bit_length n` times and return the
last `msg` (`none` models the `UnboundLocalError` raised at the `return`
when the loop body never executed). -/
def decrypt_attack (n enc2 c0 : ℕ) (oracle : ℕ → Bool) : Option (List ℕ) :=
  msgAfter n (oracleAns n enc2 c0 oracle) (bit_length n)

/-- A correct parity oracle's answer in iteration `i` when the target
ciphertext decrypts to `m`: iteration `i`'s cipher decrypts to
`2^(i+1) * m mod n`, and the answer is whether that value is even. -/
def correctAns (n m : ℕ) (i : ℕ) : Bool :=
  decide (2 ^ (i + 1) * m % n % 2 = 0)

/-! ## Helper lemmas -/

/-- The `res = True` branch of the loop body, as record fields. -/
lemma step_true (n : ℕ) (s : AttackState) :
    step n true s =
      ⟨s.low_frac, (s.high_frac - s.low_frac) / 2 + s.low_frac, s.low,
        (n : ℚ) * ((s.high_frac - s.low_frac) / 2 + s.low_frac)⟩ := rfl

/-- The `res = False` branch of the loop body, as record fields. -/
lemma step_false (n : ℕ) (s : AttackState) :
    step n false s =
      ⟨(s.high_frac - s.low_frac) / 2 + s.low_frac, s.high_frac,
        (n : ℚ) * ((s.high_frac - s.low_frac) / 2 + s.low_frac), s.high⟩ := rfl

/-- The rational bounds stay in `[0, 1]` and ordered, whatever the
answers are. -/
lemma runAttack_bounds (n : ℕ) (ans : ℕ → Bool) (k : ℕ) :
    0 ≤ (runAttack n ans k).low_frac ∧
      (runAttack n ans k).low_frac ≤ (runAttack n ans k).high_frac ∧
      (runAttack n ans k).high_frac ≤ 1 := by
  induction k with
  | zero => simp [runAttack, initState]
  | succ k ih =>
    obtain ⟨h0, hlh, h1⟩ := ih
    rw [runAttack]
    cases hk : ans k
    · rw [step_false]
      exact ⟨by linarith, by linarith, by linarith⟩
    · rw [step_true]
      exact ⟨by linarith, by linarith, by linarith⟩

/-- The loop only consults the answers of its own `k` rounds. -/
lemma runAttack_congr (n : ℕ) (ans ans' : ℕ → Bool) (k : ℕ)
    (h : ∀ i, i < k → ans i = ans' i) :
    runAttack n ans k = runAttack n ans' k := by
  induction k with
  | zero => rfl
  | succ k ih =>
    rw [runAttack, runAttack, h k (Nat.lt_succ_self k),
      ih fun i hi => h i (Nat.lt_succ_of_lt hi)]

/-- `bit_length` is zero exactly on zero. -/
lemma bit_length_eq_zero (n : ℕ) : bit_length n = 0 ↔ n = 0 := by
  rcases Nat.eq_zero_or_pos n with h | h
  · simp [h, bit_length]
  · rw [bit_length, if_neg (by omega)]
    omega

/-- `n` fits in `bit_length n` bits. -/
lemma lt_two_pow_bit_length (n : ℕ) : n < 2 ^ bit_length n := by
  rcases Nat.eq_zero_or_pos n with h | h
  · simp [h, bit_length]
  · rw [bit_length, if_neg (by omega)]
    exact (Nat.log2_lt (by omega)).mp (Nat.lt_succ_self _)

/-- The integer-scaled mirrors equal `n` times the rational bounds after
every round. -/
lemma runAttack_mirror (n : ℕ) (ans : ℕ → Bool) (k : ℕ) :
    (runAttack n ans k).low = (n : ℚ) * (runAttack n ans k).low_frac ∧
      (runAttack n ans k).high = (n : ℚ) * (runAttack n ans k).high_frac := by
  induction k with
  | zero => simp [runAttack, initState]
  | succ k ih =>
    rw [runAttack]
    cases hk : ans k
    · rw [step_false]
      exact ⟨rfl, ih.2⟩
    · rw [step_true]
      exact ⟨ih.1, rfl⟩

/-- Bisection invariant against a truthful parity oracle on an odd
modulus: after `k` rounds the bounds are the adjacent dyadics
`j / 2 ^ k` and `(j + 1) / 2 ^ k`, and that dyadic interval (scaled by
`n`) brackets the plaintext: `j * n ≤ 2 ^ k * m < j * n + n`. -/
lemma runAttack_correct_invariant (n m : ℕ) (hodd : n % 2 = 1) (hm : m < n) :
    ∀ k, ∃ j : ℕ,
      (runAttack n (correctAns n m) k).low_frac = (j : ℚ) / 2 ^ k ∧
      (runAttack n (correctAns n m) k).high_frac = ((j : ℚ) + 1) / 2 ^ k ∧
      j * n ≤ 2 ^ k * m ∧ 2 ^ k * m < j * n + n := by
  intro k
  induction k with
  | zero =>
    exact ⟨0, by simp [runAttack, initState], by simp [runAttack, initState],
      by simp, by simpa using hm⟩
  | succ k ih =>
    obtain ⟨j, hl, hh, hjl, hjh⟩ := ih
    have hn : 0 < n := by omega
    -- the plaintext's offset `t` inside the bracketing interval
    obtain ⟨t, ht, htn⟩ : ∃ t, 2 ^ k * m = j * n + t ∧ t < n := by
      refine ⟨2 ^ k * m - j * n, (Nat.add_sub_cancel' hjl).symm, ?_⟩
      have h : j * n + (2 ^ k * m - j * n) < j * n + n := by
        rw [Nat.add_sub_cancel' hjl]
        exact hjh
      exact Nat.lt_of_add_lt_add_left h
    have hpow : 2 ^ (k + 1) * m = 2 * (2 ^ k * m) := by ring
    have hsum : 2 * (2 ^ k * m) = 2 * t + 2 * j * n := by
      rw [ht]
      ring
    have hmod1 : 2 ^ (k + 1) * m % n = 2 * t % n := by
      rw [hpow, hsum]
      exact Nat.add_mul_mod_self_right ..
    have hja : 2 * j * n = 2 * (j * n) := by ring
    have hjb : (2 * j + 1) * n = 2 * (j * n) + n := by ring
    rw [runAttack]
    by_cases hc : 2 * t < n
    · -- doubling did not wrap: the plaintext is even, oracle says `true`
      have hmod : 2 ^ (k + 1) * m % n = 2 * t :=
        hmod1.trans (Nat.mod_eq_of_lt hc)
      have hansk : correctAns n m k = true := by
        simp only [correctAns, decide_eq_true_eq, hmod]
        omega
      rw [hansk, step_true]
      refine ⟨2 * j, ?_, ?_, ?_, ?_⟩
      · rw [hl]
        push_cast
        field_simp
        ring
      · rw [hl, hh]
        push_cast
        field_simp
        ring
      · rw [hja, hpow, ht]
        omega
      · rw [hpow, ht, hja]
        omega
    · -- doubling wrapped: the plaintext is odd, oracle says `false`
      have hge : n ≤ 2 * t := Nat.le_of_not_lt hc
      have hlt2 : 2 * t - n < n := by omega
      have hmod : 2 ^ (k + 1) * m % n = 2 * t - n := by
        rw [hmod1, Nat.mod_eq_sub_mod hge, Nat.mod_eq_of_lt hlt2]
      have hansk : correctAns n m k = false := by
        simp only [correctAns, decide_eq_false_iff_not, hmod]
        omega
      rw [hansk, step_false]
      refine ⟨2 * j + 1, ?_, ?_, ?_, ?_⟩
      · rw [hl, hh]
        push_cast
        field_simp
        ring
      · rw [hh]
        push_cast
        field_simp
        ring
      · rw [hjb, hpow, ht]
        omega
      · rw [hpow, ht, hjb]
        omega

end Challenge46

namespace Challenge46

/-! ## Claims -/

/-- C2: in every round, if the oracle answers `true` (even) only the
upper bound is updated, to `low + (high - low) / 2`, and if it answers
`false` only the lower bound is updated, to `low + (high - low) / 2`;
the other bound is unchanged in each case. -/
theorem step_updates_one_bound (n : ℕ) (s : AttackState) :
    ((step n true s).high_frac = s.low_frac + (s.high_frac - s.low_frac) / 2 ∧
      (step n true s).low_frac = s.low_frac ∧
      (step n true s).low = s.low) ∧
    ((step n false s).low_frac = s.low_frac + (s.high_frac - s.low_frac) / 2 ∧
      (step n false s).high_frac = s.high_frac ∧
      (step n false s).high = s.high) := by
  rw [step_true, step_false]
  exact ⟨⟨by ring, rfl, rfl⟩, by ring, rfl, rfl⟩

/-- C3: at every point of `decrypt_attack`, for every sequence of oracle
answers (correct or not), the exact rational bounds satisfy
`0 ≤ low ≤ high ≤ 1`. -/
theorem runAttack_invariant_bounds (n : ℕ) (ans : ℕ → Bool) (k : ℕ) :
    0 ≤ (runAttack n ans k).low_frac ∧
      (runAttack n ans k).low_frac ≤ (runAttack n ans k).high_frac ∧
      (runAttack n ans k).high_frac ≤ 1 :=
  runAttack_bounds n ans k

/-- C4: for every round and every answer sequence, the interval width
after the round is exactly half its pre-round value, `low` is
non-decreasing and `high` is non-increasing. -/
theorem runAttack_halving_monotone (n : ℕ) (ans : ℕ → Bool) (k : ℕ) :
    (runAttack n ans (k + 1)).high_frac - (runAttack n ans (k + 1)).low_frac
        = ((runAttack n ans k).high_frac - (runAttack n ans k).low_frac) / 2 ∧
      (runAttack n ans k).low_frac ≤ (runAttack n ans (k + 1)).low_frac ∧
      (runAttack n ans (k + 1)).high_frac ≤ (runAttack n ans k).high_frac := by
  obtain ⟨h0, hlh, h1⟩ := runAttack_bounds n ans k
  rw [runAttack]
  cases hk : ans k
  · rw [step_false]
    exact ⟨by ring, by linarith, by linarith⟩
  · rw [step_true]
    exact ⟨by ring, by linarith, by linarith⟩

/-- C9: the integer-scaled mirror variables stay in sync with the exact
rational bounds — after every round `high = n * high_frac` and
`low = n * low_frac`, so the emitted candidate `math.floor(high)` always
equals `⌊n * high_frac⌋` of the exact rational upper bound. -/
theorem runAttack_mirror_sync (n : ℕ) (ans : ℕ → Bool) (k : ℕ) :
    (runAttack n ans k).high = (n : ℚ) * (runAttack n ans k).high_frac ∧
      (runAttack n ans k).low = (n : ℚ) * (runAttack n ans k).low_frac ∧
      ⌊(runAttack n ans k).high⌋ = ⌊(n : ℚ) * (runAttack n ans k).high_frac⌋ :=
  ⟨(runAttack_mirror n ans k).2, (runAttack_mirror n ans k).1,
    by rw [(runAttack_mirror n ans k).2]⟩

/-- C1 (amended): for every **odd** modulus `n` and every plaintext
`m ∈ [0, n)`, running `decrypt_attack`'s loop for `bit_length n` rounds
against a correct parity oracle — one whose answer in round `i`
truthfully reports whether the decryption `2 ^ (i + 1) * m mod n` of the
current ciphertext is even — yields `⌊high * n⌋ = m` exactly at the
final round. -/
theorem decrypt_attack_converges (n m : ℕ) (ans : ℕ → Bool)
    (hodd : n % 2 = 1) (hm : m < n)
    (hans : ∀ i, i < bit_length n → ans i = correctAns n m i) :
    ⌊(runAttack n ans (bit_length n)).high_frac * (n : ℚ)⌋ = (m : ℤ) := by
  rw [runAttack_congr n ans (correctAns n m) (bit_length n) hans]
  obtain ⟨j, hl, hh, hjl, hjh⟩ :=
    runAttack_correct_invariant n m hodd hm (bit_length n)
  have hnlt : n < 2 ^ bit_length n := lt_two_pow_bit_length n
  have klow : m * 2 ^ bit_length n ≤ (j + 1) * n := by
    have h1 : (j + 1) * n = j * n + n := by ring
    have h2 : m * 2 ^ bit_length n = 2 ^ bit_length n * m := by ring
    omega
  have kup : (j + 1) * n < (m + 1) * 2 ^ bit_length n := by
    have h1 : (j + 1) * n = j * n + n := by ring
    have h2 : (m + 1) * 2 ^ bit_length n
        = 2 ^ bit_length n * m + 2 ^ bit_length n := by ring
    omega
  rw [hh, Int.floor_eq_iff, div_mul_eq_mul_div]
  constructor
  · rw [le_div_iff₀ (by positivity)]
    push_cast
    exact_mod_cast klow
  · rw [div_lt_iff₀ (by positivity)]
    push_cast
    exact_mod_cast kup

/-- C1 witness: a concrete odd modulus `n = 5` with plaintext `m = 3`. -/
theorem decrypt_attack_converges_witness :
    ⌊(runAttack 5 (correctAns 5 3) (bit_length 5)).high_frac * (5 : ℚ)⌋
      = (3 : ℤ) :=
  decrypt_attack_converges 5 3 (correctAns 5 3) (by norm_num) (by norm_num)
    fun _ _ => rfl

/-- C1 counterexample: for the even modulus `n = 4` and plaintext
`m = 3 ∈ [0, 4)`, running the loop for `bit_length 4 = 3` rounds against
the correct parity oracle does **not** yield `⌊high * n⌋ = m`: doubling
never changes parity mod an even modulus, so the oracle always answers
"even" and the final candidate is `0`, not `3`. -/
theorem decrypt_attack_converges_counterexample :
    3 < 4 ∧
      ⌊(runAttack 4 (correctAns 4 3) (bit_length 4)).high_frac * (4 : ℚ)⌋
        ≠ (3 : ℤ) := by
  refine ⟨by norm_num, ?_⟩
  have hb : bit_length 4 = 3 := by
    rw [bit_length]
    norm_num [Nat.log2]
  have h0 : correctAns 4 3 0 = true := by decide
  have h1 : correctAns 4 3 1 = true := by decide
  have h2 : correctAns 4 3 2 = true := by decide
  have hhf : (runAttack 4 (correctAns 4 3) 3).high_frac = 1 / 8 := by
    rw [show (3 : ℕ) = 2 + 1 from rfl, runAttack, h2, runAttack, h1,
      runAttack, h0, runAttack, initState, step_true, step_true, step_true]
    norm_num
  rw [hb, hhf]
  rw [show (1 / 8 : ℚ) * 4 = 1 / 2 by norm_num]
  rw [show ⌊(1 / 2 : ℚ)⌋ = 0 from by rw [Int.floor_eq_iff]; norm_num]
  norm_num

/-- C6: `Oracle.validate_msg` returns `true` if and only if decrypting
its ciphertext argument yields an even integer (lowest bit `0`); the
boolean is its only output. -/
theorem validate_msg_true_iff_even (dec : ℕ → ℕ) (cipher : ℕ) :
    validate_msg dec cipher = true ↔ Even (dec cipher) := by
  simp [validate_msg, Nat.and_one_is_mod, Nat.even_iff]

/-- C7: the loop of `decrypt_attack` performs exactly `bit_length n`
oracle queries, and the round count is fixed up front: two oracles
agreeing on those queries produce the same result, so no oracle answer
can change the number of rounds. -/
theorem decrypt_attack_fixed_round_count (n enc2 c0 : ℕ)
    (oracle oracle' : ℕ → Bool)
    (h : ∀ i, i < bit_length n →
      oracle (cipherAtRound n enc2 c0 (i + 1)) =
        oracle' (cipherAtRound n enc2 c0 (i + 1))) :
    (attackQueries n enc2 c0).length = bit_length n ∧
      decrypt_attack n enc2 c0 oracle = decrypt_attack n enc2 c0 oracle' := by
  refine ⟨by simp [attackQueries], ?_⟩
  have hrun := runAttack_congr n (oracleAns n enc2 c0 oracle)
    (oracleAns n enc2 c0 oracle') (bit_length n) fun i hi => h i hi
  simp [decrypt_attack, msgAfter, hrun]

/-- C7 witness: a concrete instance of the fixed round count. -/
theorem decrypt_attack_fixed_round_count_witness :
    (attackQueries 5 3 2).length = bit_length 5 ∧
      decrypt_attack 5 3 2 (fun _ => true) =
        decrypt_attack 5 3 2 (fun _ => true) :=
  decrypt_attack_fixed_round_count 5 3 2 (fun _ => true) (fun _ => true)
    fun _ _ => rfl

/-- C8: for any positive modulus, `decrypt_attack` returns the candidate
of the last round — the squeezed minimal bytes of `⌊high_frac * n⌋` after
all `bit_length n` rounds. -/
theorem decrypt_attack_returns_last_candidate (n enc2 c0 : ℕ)
    (oracle : ℕ → Bool) (hn : 1 ≤ n) :
    decrypt_attack n enc2 c0 oracle =
      some (integer_to_bytes_squeezed
        (⌊(runAttack n (oracleAns n enc2 c0 oracle)
            (bit_length n)).high_frac * (n : ℚ)⌋.toNat)) := by
  have hb : bit_length n ≠ 0 := by
    rw [Ne, bit_length_eq_zero]
    omega
  have hm := (runAttack_mirror n (oracleAns n enc2 c0 oracle) (bit_length n)).2
  rw [decrypt_attack, msgAfter, if_neg hb, hm, mul_comm]

/-- C8 witness: a concrete instance of the final-candidate equation. -/
theorem decrypt_attack_returns_last_candidate_witness :
    decrypt_attack 5 3 2 (fun _ => true) =
      some (integer_to_bytes_squeezed
        (⌊(runAttack 5 (oracleAns 5 3 2 (fun _ => true))
            (bit_length 5)).high_frac * (5 : ℚ)⌋.toNat)) :=
  decrypt_attack_returns_last_candidate 5 3 2 (fun _ => true) (by norm_num)

/-- Modelled from the spec: the collaborator RSA primitive (module
`Utils.PublicKey`, not part of this repository's sources) is abstracted
by a decryption function `dec` and the constant `enc2 = encrypt(2)`; per
the spec's homomorphic-doubling property, multiplying a ciphertext by
`encrypt(2)` mod `n` doubles its decryption mod `n`. Under that
assumption, iteration `i` of `decrypt_attack` queries a ciphertext that
decrypts to `2 ^ (i + 1) * m % n`. -/
lemma dec_cipherAtRound (n enc2 c0 m : ℕ) (dec : ℕ → ℕ) (hn : 1 ≤ n)
    (hm : dec (c0 * enc2 % n) = 2 * m % n)
    (hhom : ∀ c, c < n → dec (c * enc2 % n) = 2 * dec c % n) (i : ℕ) :
    dec (cipherAtRound n enc2 c0 (i + 1)) = 2 ^ (i + 1) * m % n := by
  induction i with
  | zero => simpa [cipherAtRound] using hm
  | succ i ih =>
    have hlt : cipherAtRound n enc2 c0 (i + 1) < n := by
      rw [cipherAtRound]
      exact Nat.mod_lt _ (by omega)
    rw [cipherAtRound, hhom _ hlt, ih, Nat.mul_mod_mod]
    congr 1
    ring

/-- C5: for a target ciphertext with known plaintext `m`, the oracle's
answer in round `i` of `decrypt_attack` (true = even) corresponds to the
parity bit of `(2 ^ (i + 1) * m) mod n` being `0`, for every round `i`. -/
theorem oracle_answer_parity_consistency (n enc2 c0 m : ℕ) (dec : ℕ → ℕ)
    (hn : 1 ≤ n)
    (hm : dec (c0 * enc2 % n) = 2 * m % n)
    (hhom : ∀ c, c < n → dec (c * enc2 % n) = 2 * dec c % n) (i : ℕ) :
    validate_msg dec (cipherAtRound n enc2 c0 (i + 1)) = true ↔
      2 ^ (i + 1) * m % n % 2 = 0 := by
  rw [validate_msg, dec_cipherAtRound n enc2 c0 m dec hn hm hhom i]
  simp [Nat.and_one_is_mod]

/-- C5 witness: a concrete RSA instance (`n = 15`, `e = d = 3`, so
`enc2 = 2 ^ 3 % 15 = 8`) with plaintext `m = 7` and target ciphertext
`c0 = 7 ^ 3 % 15 = 13`, checked at round `i = 1`. -/
theorem oracle_answer_parity_consistency_witness :
    validate_msg (fun c => c ^ 3 % 15) (cipherAtRound 15 8 13 2) = true ↔
      2 ^ 2 * 7 % 15 % 2 = 0 :=
  oracle_answer_parity_consistency 15 8 13 7 (fun c => c ^ 3 % 15)
    (by norm_num) (by decide) (by decide) 1

/-- C10: `decrypt_attack`'s result is defined exactly when
`bit_length n ≥ 1`, i.e. `n ≥ 1`; with `n = 0` the loop body never runs
and the `return` reads the never-bound local `msg` (modelled as `none`). -/
theorem decrypt_attack_defined_iff (n enc2 c0 : ℕ) (oracle : ℕ → Bool) :
    (decrypt_attack n enc2 c0 oracle).isSome = true ↔ 1 ≤ n := by
  by_cases h : n = 0
  · subst h
    simp [decrypt_attack, msgAfter, bit_length]
  · have hb : bit_length n ≠ 0 := by
      rw [Ne, bit_length_eq_zero]
      omega
    simp [decrypt_attack, msgAfter, hb]
    omega

end Challenge46
